import Mathlib

/-! Shallow embedding of the Scrabble word finder
(`src/ScrabbleSolver/src/Main.cpp`, together with the filter-less variant of
the same `solve` routine found elsewhere in the repository).

Words, racks and filter strings are modelled as `List Char`; the C++ `int`
score arithmetic is modelled by `Int`; tile counts (stored in `char` arrays in
the source, always small and non-negative) are modelled by `Nat`.  The one
place where machine-integer behaviour matters — the unsigned `size_t`
subtraction `word.length() - strlen(endsWith)` feeding the ends-with filter —
is modelled explicitly modulo `2 ^ 64`.
-/

namespace ScrabbleSolver

/-- The static point table of `convert` in Main.cpp:
`points[26] = { 1, 3, 3, 2, 1, 4, 2, 4, 1, 8, 5, 1, 3, 1, 1, 3, 10, 1, 1, 1,
1, 4, 4, 8, 4, 10 }`. -/
def pointTable : List Nat :=
  [1, 3, 3, 2, 1, 4, 2, 4, 1, 8, 5, 1, 3, 1, 1, 3, 10, 1, 1, 1, 1, 4, 4, 8,
   4, 10]

/-- Letter classification shared by `convert` and the counting loops of
`solve`: an upper-case letter `c` maps to slot `c - 'A'`, a lower-case letter
to slot `c - 'a'`, and every other character to no slot.  Character
comparisons in the C++ source are numeric comparisons of character codes,
written here via `Char.toNat`. -/
def letterIndex? (c : Char) : Option Nat :=
  if 'A'.toNat ≤ c.toNat ∧ c.toNat ≤ 'Z'.toNat then some (c.toNat - 'A'.toNat)
  else if 'a'.toNat ≤ c.toNat ∧ c.toNat ≤ 'z'.toNat then
    some (c.toNat - 'a'.toNat)
  else none

/-- The point value of letter slot `i` (the source's `points[i]`, only ever
read at `i < 26`). -/
def letterValue (i : Nat) : Int :=
  ((pointTable.getD i 0 : Nat) : Int)

/-- `convert` from Main.cpp: point value of a character; characters outside
`A`–`Z`/`a`–`z` are worth 0. -/
def convert (c : Char) : Int :=
  match letterIndex? c with
  | some i => letterValue i
  | none => 0

/-- `calculate` from Main.cpp: the base score of a word, the sum of the point
values of its characters. -/
def calculate (word : List Char) : Int :=
  (word.map convert).sum

/-- The per-slot frequency count built by the counting loops of `solve`
(both the `letters[0..25]` rack counts and the per-word `frequency` array):
how many characters of `s` fall in letter slot `i`. -/
def countLetter (s : List Char) (i : Nat) : Nat :=
  s.countP (fun c => letterIndex? c == some i)

/-- The blank count `letters[26]` built by the rack-scanning loop of `solve`:
the number of `'?'` characters of the input. -/
def blankCount (s : List Char) : Nat :=
  s.countP (fun c => c == '?')

/-- One iteration of the feasibility loop of `solve` (Main.cpp lines
144–155), for letter slot `i`, carrying the remaining blank budget and the
running score; `none` is the `valid = false` early exit. -/
def checkStep (frequency letters : Nat → Nat) (st : Option (Nat × Int))
    (i : Nat) : Option (Nat × Int) :=
  match st with
  | none => none
  | some (blanks, pts) =>
    if letters i < frequency i then
      if frequency i - letters i ≤ blanks then
        some (blanks - (frequency i - letters i),
          pts - letterValue i * ((frequency i - letters i : Nat) : Int))
      else none
    else some (blanks, pts)

/-- The feasibility check of `solve`: scan the 26 letter slots in order,
starting from the rack's blank count and the word's base score; `some pts`
means the word is constructible with adjusted score `pts`. -/
def check (frequency letters : Nat → Nat) (blanks : Nat) (basePoints : Int) :
    Option Int :=
  (((List.range 26).foldl (checkStep frequency letters)
    (some (blanks, basePoints)))).map Prod.snd

/-- Truncated per-letter shortfall `max (0, frequency i - letters i)`
(`Nat` subtraction truncates at 0 exactly like the guarded C++ code). -/
def deficit (frequency letters : Nat → Nat) (i : Nat) : Nat :=
  frequency i - letters i

/-- The total shortfall over the 26 letter slots. -/
def totalDeficit (frequency letters : Nat → Nat) : Nat :=
  ((List.range 26).map (deficit frequency letters)).sum

/-- The total score deduction owed to blank substitution: for each letter
slot, its point value times its shortfall. -/
def deficitCost (frequency letters : Nat → Nat) : Int :=
  ((List.range 26).map
    (fun i => letterValue i * ((deficit frequency letters i : Nat) : Int))).sum

/-- Does the pattern occur in `w` as a contiguous run starting at index `i`?
(The occurrence test underlying `std::string::find`/`rfind`.) -/
def occursAt (w pat : List Char) (i : Nat) : Bool :=
  decide (i + pat.length ≤ w.length) && ((w.drop i).take pat.length == pat)

/-- `std::string::find(pat, pos)`: the least index `i ≥ pos` at which `pat`
occurs in `w`, or `none` (`npos`) if there is no such occurrence.  Note that
for an empty pattern this returns `some pos` whenever `pos ≤ w.length`,
matching the C++ semantics. -/
def strFind (w pat : List Char) (pos : Nat) : Option Nat :=
  (((List.range (w.length + 1))).filter
    (fun i => decide (pos ≤ i) && occursAt w pat i)).head?

/-- `std::string::rfind(pat, pos)`: the greatest index `i ≤ pos` at which
`pat` occurs in `w`, or `none` (`npos`). -/
def strRfind (w pat : List Char) (pos : Nat) : Option Nat :=
  (((List.range (w.length + 1))).filter
    (fun i => decide (i ≤ pos) && occursAt w pat i)).getLast?

/-- Unsigned 64-bit subtraction: the value of the C++ `size_t` expression
`a - b`, which wraps around modulo `2 ^ 64` when `b > a`. -/
def sizeTSub (a b : Nat) : Nat :=
  (((a : Int) - (b : Int)) % ((2 : Int) ^ (64 : Nat))).toNat

/-- The three optional filter strings passed to `solve`. -/
structure Filters where
  startsWith : List Char
  endsWith : List Char
  contains : List Char
deriving DecidableEq

/-- The filter gauntlet of `solve` (Main.cpp lines 125–131): a word survives
when `word.rfind(startsWith, 0)`, `word.find(endsWith, word.length() -
strlen(endsWith))` and `word.find(contains)` all differ from `npos`. -/
def passesFilters (f : Filters) (word : List Char) : Bool :=
  (strRfind word f.startsWith 0).isSome &&
  ((strFind word f.endsWith (sizeTSub word.length f.endsWith.length)).isSome &&
    (strFind word f.contains 0).isSome)

/-- The `SortingMethod` enumeration of Main.cpp. -/
inductive SortingMethod where
  | None
  | Points
  | Length
deriving DecidableEq

/-- The character loop shared by both sorting comparators (run only on
equal-length words): walk the two words in lockstep and report the comparison
of the first differing characters, or `none` when no position differs. -/
def charLoop : List Char → List Char → Option Bool
  | a :: as, b :: bs =>
    if a = b then charLoop as bs else some (decide (a < b))
  | _, _ => none

/-- The `SortingMethod::Points` comparator of `solve`: score first, then
length, then first differing character; identical words fall through to the
final `length < length` comparison, which is `false`. -/
def pointsLt (a b : List Char × Int) : Bool :=
  if a.2 = b.2 then
    if a.1.length = b.1.length then
      match charLoop a.1 b.1 with
      | some r => r
      | none => decide (a.1.length < b.1.length)
    else decide (a.1.length < b.1.length)
  else decide (a.2 < b.2)

/-- The `SortingMethod::Length` comparator of `solve`: length first, then
first differing character. -/
def lengthLt (a b : List Char × Int) : Bool :=
  if a.1.length = b.1.length then
    match charLoop a.1 b.1 with
    | some r => r
    | none => decide (a.1.length < b.1.length)
  else decide (a.1.length < b.1.length)

/-- Insert `x` into `l` in front of the first element `y` with `lt x y`
(elements equivalent to `x` are passed over). -/
def insertBy {α : Type} (lt : α → α → Bool) (x : α) : List α → List α
  | [] => [x]
  | y :: ys => if lt x y then x :: y :: ys else y :: insertBy lt x ys

/-- Comparison sort used to model `std::sort`: the output is a permutation of
the input that is sorted with respect to the strict comparator `lt` (which is
all `std::sort` guarantees). -/
def sortBy {α : Type} (lt : α → α → Bool) : List α → List α
  | [] => []
  | x :: xs => insertBy lt x (sortBy lt xs)

/-- The `switch (method)` sorting step of `solve`: `Points` and `Length` sort
with their comparators; `None` has no `case` and leaves the list untouched. -/
def sortWords (method : SortingMethod) (words : List (List Char × Int)) :
    List (List Char × Int) :=
  match method with
  | .None => words
  | .Points => sortBy pointsLt words
  | .Length => sortBy lengthLt words

/-- One pass of the accumulation loop of `solve` (Main.cpp lines 124–160)
over a single dictionary word: `none` when a filter or the feasibility check
rejects it, otherwise the (word, adjusted score) pair that is pushed. -/
def candidateOf (input : List Char) (f : Filters) (word : List Char) :
    Option (List Char × Int) :=
  if passesFilters f word then
    match check (countLetter word) (countLetter input) (blankCount input)
      (calculate word) with
    | some points => some (word, points)
    | none => none
  else none

/-- The accumulation loop of `solve`: run `candidateOf` over the dictionary
in its stored order, keeping the produced pairs. -/
def candidateWords (dictionary : List (List Char)) (input : List Char)
    (f : Filters) : List (List Char × Int) :=
  dictionary.filterMap (candidateOf input f)

/-- `solve` from Main.cpp, up to formatting: accumulate the surviving
(word, adjusted score) pairs, then sort them according to `method`. -/
def solve (dictionary : List (List Char)) (input : List Char) (f : Filters)
    (method : SortingMethod) : List (List Char × Int) :=
  sortWords method (candidateWords dictionary input f)

/-- The filter-less `solve` variant found in the repository's second source
file: identical accumulation and sorting, with no filter gauntlet. -/
def solveUnfiltered (dictionary : List (List Char)) (input : List Char)
    (method : SortingMethod) : List (List Char × Int) :=
  sortWords method (dictionary.filterMap (fun word =>
    match check (countLetter word) (countLetter input) (blankCount input)
      (calculate word) with
    | some points => some (word, points)
    | none => none))

/-- `std::to_string` on the `int` score: decimal digits, with a leading `'-'`
for negative values. -/
def intToString (n : Int) : List Char :=
  if n < 0 then '-' :: Nat.toDigits 10 n.natAbs else Nat.toDigits 10 n.toNat

/-- One formatted line of the result string: `<WORD> (<score>)`. -/
def renderEntry (p : List Char × Int) : List Char :=
  p.1 ++ (" (".data ++ (intToString p.2 ++ ")".data))

/-- The formatting loop of `solve` (Main.cpp lines 199–209): `"No results"`
for an empty list, otherwise append `<WORD> (<score>)\r\n` for every entry
and `pop_back()` twice to strip the final line ending. -/
def format (words : List (List Char × Int)) : List Char :=
  if words.isEmpty then "No results".data
  else
    ((words.foldl (fun acc p => acc ++ (renderEntry p ++ "\r\n".data))
      [])).dropLast.dropLast

/-- Spec-side rendering used to state the formatter claim: the entries joined
by the sequence `"\r\n"`, with no trailing line ending after the final
entry. -/
def joinCRLF : List (List Char) → List Char
  | [] => []
  | [x] => x
  | x :: xs => x ++ '\r' :: '\n' :: joinCRLF xs

/-- Spec-side by-score order used to state the sortedness claim: adjusted
score ascending, ties broken by word length ascending, further ties broken by
the first differing character (equal word texts are allowed to stand in
either order). -/
def specByScoreLe (a b : List Char × Int) : Prop :=
  a.2 < b.2 ∨ (a.2 = b.2 ∧ (a.1.length < b.1.length ∨
    (a.1.length = b.1.length ∧ (a.1 = b.1 ∨ charLoop a.1 b.1 = some true))))

/-- A word is accepted by one pass of the accumulation loop when it survives
the filters and the feasibility check succeeds on it. -/
def accepted (input : List Char) (f : Filters) (word : List Char) : Bool :=
  passesFilters f word &&
    (check (countLetter word) (countLetter input) (blankCount input)
      (calculate word)).isSome

/-! Characterization of the feasibility loop -/

theorem foldl_checkStep_none (frequency letters : Nat → Nat) (L : List Nat) :
    L.foldl (checkStep frequency letters) none = none := by
  induction L with
  | nil => rfl
  | cons i t ih => simpa [checkStep] using ih

theorem foldl_checkStep (frequency letters : Nat → Nat) (L : List Nat) :
    ∀ (b : Nat) (p : Int),
      L.foldl (checkStep frequency letters) (some (b, p)) =
        if (L.map (deficit frequency letters)).sum ≤ b then
          some (b - (L.map (deficit frequency letters)).sum,
            p - (L.map (fun i => letterValue i *
              ((deficit frequency letters i : Nat) : Int))).sum)
        else none := by
  induction L with
  | nil => intro b p; simp
  | cons i t ih =>
    intro b p
    simp only [List.foldl_cons, List.map_cons, List.sum_cons]
    by_cases hlt : letters i < frequency i
    · by_cases hb : frequency i - letters i ≤ b
      · have hstep : checkStep frequency letters (some (b, p)) i =
            some (b - (frequency i - letters i),
              p - letterValue i * ((frequency i - letters i : Nat) : Int)) := by
          simp [checkStep, hlt, hb]
        have hd : deficit frequency letters i = frequency i - letters i := rfl
        rw [hstep, ih, hd, Nat.sub_sub, sub_sub]
        have hcond : ((List.map (deficit frequency letters) t).sum ≤
            b - (frequency i - letters i)) ↔
            (frequency i - letters i +
              (List.map (deficit frequency letters) t).sum ≤ b) := by omega
        simp only [hcond]
      · have hstep : checkStep frequency letters (some (b, p)) i = none := by
          simp [checkStep, hlt, hb]
        rw [hstep, foldl_checkStep_none]
        rw [if_neg (by show ¬(frequency i - letters i + _ ≤ b); omega)]
    · have hstep : checkStep frequency letters (some (b, p)) i = some (b, p) := by
        simp [checkStep, hlt]
      have hd0 : deficit frequency letters i = 0 :=
        Nat.sub_eq_zero_of_le (Nat.le_of_not_lt hlt)
      rw [hstep, ih, hd0]
      simp

theorem check_eq (frequency letters : Nat → Nat) (blanks : Nat)
    (basePoints : Int) :
    check frequency letters blanks basePoints =
      if totalDeficit frequency letters ≤ blanks then
        some (basePoints - deficitCost frequency letters)
      else none := by
  unfold check totalDeficit deficitCost
  rw [foldl_checkStep]
  split <;> simp_all

/-- Claim C1: for every rack (with blank count `B`) and every dictionary
word, the feasibility check accepts the word iff the total deficit — the sum
over the 26 letters of `max 0 (wordCount - rackCount)` — is at most `B`; it
never rejects a word with total deficit at most `B` and always rejects one
whose total deficit exceeds `B`. -/
theorem feasibility_iff_totalDeficit (input word : List Char) :
    (check (countLetter word) (countLetter input) (blankCount input)
        (calculate word)).isSome = true ↔
      totalDeficit (countLetter word) (countLetter input) ≤
        blankCount input := by
  rw [check_eq]
  split <;> simp_all

/-- Claim C2: for every constructible word the adjusted score is the base
score minus, for each letter where the rack is short, that letter's value
times the blank-covered deficit (`deficitCost`); when the word's letter
distribution is pointwise at most the rack's, the adjusted score equals the
base score; and rack `"CA?"` with word `"CAT"` is constructible with adjusted
score 4. -/
theorem adjustedScore_spec :
    (∀ (input word : List Char) (adjusted : Int),
        check (countLetter word) (countLetter input) (blankCount input)
            (calculate word) = some adjusted →
        adjusted = calculate word -
          deficitCost (countLetter word) (countLetter input)) ∧
    (∀ (input word : List Char),
        (∀ i < 26, countLetter word i ≤ countLetter input i) →
        check (countLetter word) (countLetter input) (blankCount input)
            (calculate word) = some (calculate word)) ∧
    check (countLetter "CAT".data) (countLetter "CA?".data)
        (blankCount "CA?".data) (calculate "CAT".data) = some 4 := by
  refine ⟨?_, ?_, by decide⟩
  · intro input word adjusted h
    rw [check_eq] at h
    split at h
    · exact (Option.some_inj.mp h).symm
    · exact absurd h (by simp)
  · intro input word h
    have hdef : totalDeficit (countLetter word) (countLetter input) = 0 := by
      unfold totalDeficit
      apply List.sum_eq_zero
      intro x hx
      obtain ⟨i, hi, rfl⟩ := List.mem_map.mp hx
      exact Nat.sub_eq_zero_of_le (h i (List.mem_range.mp hi))
    have hcost : deficitCost (countLetter word) (countLetter input) = 0 := by
      unfold deficitCost
      apply List.sum_eq_zero
      intro x hx
      obtain ⟨i, hi, rfl⟩ := List.mem_map.mp hx
      have h0 : deficit (countLetter word) (countLetter input) i = 0 :=
        Nat.sub_eq_zero_of_le (h i (List.mem_range.mp hi))
      rw [h0]
      simp
    rw [check_eq, hdef, hcost]
    simp

theorem adjustedScore_spec_witness :
    (4 : Int) = calculate "CAT".data -
        deficitCost (countLetter "CAT".data) (countLetter "CA?".data) ∧
    check (countLetter "AT".data) (countLetter "TA".data)
        (blankCount "TA".data) (calculate "AT".data) =
      some (calculate "AT".data) :=
  ⟨adjustedScore_spec.1 "CA?".data "CAT".data 4 (by decide),
   adjustedScore_spec.2.1 "TA".data "AT".data (by decide)⟩

/-! The base score as a weighted letter count -/

theorem letterIndex?_lt {c : Char} {j : Nat} (h : letterIndex? c = some j) :
    j < 26 := by
  unfold letterIndex? at h
  have hA : 'A'.toNat = 65 := rfl
  have hZ : 'Z'.toNat = 90 := rfl
  have ha : 'a'.toNat = 97 := rfl
  have hz : 'z'.toNat = 122 := rfl
  split_ifs at h with h1 h2
  · rw [hA, hZ] at h1
    rw [hA] at h
    have hj := Option.some_inj.mp h
    omega
  · rw [ha, hz] at h2
    rw [ha] at h
    have hj := Option.some_inj.mp h
    omega

theorem sum_map_ite_eq (v : Nat → Int) (j : Nat) :
    ∀ n : Nat, ((List.range n).map (fun i => if j = i then v i else 0)).sum =
      if j < n then v j else 0 := by
  intro n
  induction n with
  | zero => simp
  | succ n ih =>
    rw [List.range_succ, List.map_append, List.sum_append, ih]
    rcases Nat.lt_trichotomy j n with h | h | h
    · have h1 : j < n := h
      have h2 : j ≠ n := Nat.ne_of_lt h
      have h3 : j < n + 1 := by omega
      simp [h1, h2, h3]
    · subst h
      simp
    · have h1 : ¬ j < n := by omega
      have h2 : j ≠ n := by omega
      have h3 : ¬ j < n + 1 := by omega
      simp [h1, h2, h3]

theorem calculate_eq_weighted (word : List Char) :
    calculate word =
      ((List.range 26).map
        (fun i => letterValue i * ((countLetter word i : Nat) : Int))).sum := by
  induction word with
  | nil => simp [calculate, countLetter]
  | cons c w ih =>
    have hcalc : calculate (c :: w) = convert c + calculate w := by
      simp [calculate]
    have hcount : ∀ i, countLetter (c :: w) i =
        countLetter w i + (if letterIndex? c == some i then 1 else 0) := by
      intro i
      simp [countLetter, List.countP_cons]
    rw [hcalc, ih]
    simp only [hcount, Nat.cast_add, mul_add]
    rw [List.sum_map_add]
    have hite : (List.range 26).map
          (fun i => letterValue i *
            (((if letterIndex? c == some i then 1 else 0 : Nat) : Nat) : Int)) =
        (List.range 26).map
          (fun i => if letterIndex? c = some i then letterValue i else 0) := by
      apply List.map_congr_left
      intro i _
      by_cases hc : letterIndex? c = some i
      · simp [hc]
      · simp [hc]
    rw [hite]
    cases hc : letterIndex? c with
    | none =>
      have hzero : (List.range 26).map
            (fun i => if (none : Option Nat) = some i then letterValue i
              else 0) =
          (List.range 26).map (fun _ => (0 : Int)) := by
        apply List.map_congr_left
        intro i _
        simp
      rw [hzero]
      have : ((List.range 26).map (fun _ => (0 : Int))).sum = 0 := by
        apply List.sum_eq_zero
        intro x hx
        obtain ⟨i, _, h0⟩ := List.mem_map.mp hx
        exact h0.symm
      rw [this, convert, hc]
      simp
    | some j =>
      have hsome : (List.range 26).map
            (fun i => if some j = some i then letterValue i else 0) =
          (List.range 26).map (fun i => if j = i then letterValue i else 0) := by
        apply List.map_congr_left
        intro i _
        simp
      rw [hsome, sum_map_ite_eq, if_pos (letterIndex?_lt hc), convert, hc]
      exact add_comm _ _

theorem deficitCost_nonneg (frequency letters : Nat → Nat) :
    0 ≤ deficitCost frequency letters := by
  unfold deficitCost
  apply List.sum_nonneg
  intro x hx
  obtain ⟨i, _, rfl⟩ := List.mem_map.mp hx
  exact mul_nonneg (Int.natCast_nonneg _) (Int.natCast_nonneg _)

theorem deficitCost_le_calculate (word : List Char) (letters : Nat → Nat) :
    deficitCost (countLetter word) letters ≤ calculate word := by
  rw [calculate_eq_weighted]
  unfold deficitCost
  apply List.sum_le_sum
  intro i _
  apply mul_le_mul_of_nonneg_left
  · exact_mod_cast Nat.sub_le _ _
  · exact Int.natCast_nonneg _

/-! The sorting step is a permutation -/

theorem mem_insertBy {α : Type} (lt : α → α → Bool) (x z : α) :
    ∀ l : List α, z ∈ insertBy lt x l ↔ z = x ∨ z ∈ l := by
  intro l
  induction l with
  | nil => simp [insertBy]
  | cons y ys ih =>
    by_cases h : lt x y = true
    · simp only [insertBy, if_pos h, List.mem_cons]
    · simp only [insertBy, if_neg h, List.mem_cons, ih]
      tauto

theorem insertBy_perm {α : Type} (lt : α → α → Bool) (x : α) :
    ∀ l : List α, (insertBy lt x l).Perm (x :: l) := by
  intro l
  induction l with
  | nil => simp [insertBy]
  | cons y ys ih =>
    by_cases h : lt x y = true
    · simp [insertBy, h]
    · simp only [insertBy, if_neg h]
      exact (ih.cons y).trans (List.Perm.swap x y ys)

theorem sortBy_perm {α : Type} (lt : α → α → Bool) :
    ∀ l : List α, (sortBy lt l).Perm l := by
  intro l
  induction l with
  | nil => exact List.Perm.refl _
  | cons x xs ih =>
    exact (insertBy_perm lt x (sortBy lt xs)).trans (ih.cons x)

theorem sortWords_perm (method : SortingMethod)
    (ws : List (List Char × Int)) : (sortWords method ws).Perm ws := by
  cases method with
  | None => exact List.Perm.refl _
  | Points => exact sortBy_perm _ _
  | Length => exact sortBy_perm _ _

/-! Shape of the accumulation loop's output -/

theorem candidateOf_eq_some {input : List Char} {f : Filters}
    {word : List Char} {p : List Char × Int}
    (h : candidateOf input f word = some p) :
    passesFilters f word = true ∧ p.1 = word ∧
      check (countLetter word) (countLetter input) (blankCount input)
        (calculate word) = some p.2 := by
  unfold candidateOf at h
  by_cases hp : passesFilters f word = true
  · rw [if_pos hp] at h
    cases hc : check (countLetter word) (countLetter input) (blankCount input)
        (calculate word) with
    | none => rw [hc] at h; exact absurd h (by simp)
    | some pts =>
      rw [hc] at h
      have hp2 := Option.some_inj.mp h
      refine ⟨hp, ?_, ?_⟩
      · rw [← hp2]
      · rw [← hp2]
  · rw [if_neg hp] at h
    exact absurd h (by simp)

/-- Claim C10: every candidate emitted by `solve` has an adjusted score
between 0 and the word's base score: blank-substitution deductions never
exceed the sum of letter values, so no emitted score is negative. -/
theorem score_bounds (dictionary : List (List Char)) (input : List Char)
    (f : Filters) (method : SortingMethod) (word : List Char) (points : Int)
    (h : (word, points) ∈ solve dictionary input f method) :
    0 ≤ points ∧ points ≤ calculate word := by
  have hmem : (word, points) ∈ candidateWords dictionary input f :=
    (sortWords_perm method _).mem_iff.mp h
  obtain ⟨u, _, hu⟩ := List.mem_filterMap.mp hmem
  obtain ⟨_, hfst, hcheck⟩ := candidateOf_eq_some hu
  have hwu : word = u := hfst
  subst hwu
  rw [check_eq] at hcheck
  split at hcheck
  · have hpts : calculate word -
        deficitCost (countLetter word) (countLetter input) = points :=
      Option.some_inj.mp hcheck
    rw [← hpts]
    constructor
    · exact sub_nonneg.mpr (deficitCost_le_calculate word (countLetter input))
    · exact sub_le_self _ (deficitCost_nonneg _ _)
  · exact absurd hcheck (by simp)

theorem score_bounds_witness :
    ("CAT".data, (4 : Int)) ∈
        solve ["CAT".data] "CA?".data ⟨[], [], []⟩ .Points ∧
    (0 ≤ (4 : Int) ∧ (4 : Int) ≤ calculate "CAT".data) :=
  ⟨by decide,
   score_bounds ["CAT".data] "CA?".data ⟨[], [], []⟩ .Points "CAT".data 4
     (by decide)⟩

/-! Filter semantics -/

theorem occursAt_iff (w pat : List Char) (i : Nat) :
    occursAt w pat i = true ↔
      i + pat.length ≤ w.length ∧ (w.drop i).take pat.length = pat := by
  simp [occursAt]

theorem filter_range_ne_nil_iff (P : Nat → Bool) (n : Nat) :
    (List.range n).filter P ≠ [] ↔ ∃ i, i < n ∧ P i = true := by
  rw [ne_eq, List.filter_eq_nil_iff]
  push_neg
  constructor
  · rintro ⟨i, hi, hp⟩
    exact ⟨i, List.mem_range.mp hi, by simpa using hp⟩
  · rintro ⟨i, hi, hp⟩
    exact ⟨i, List.mem_range.mpr hi, by simpa using hp⟩

theorem strFind_isSome_iff (w pat : List Char) (pos : Nat) :
    (strFind w pat pos).isSome = true ↔
      ∃ i, i < w.length + 1 ∧ pos ≤ i ∧ occursAt w pat i = true := by
  unfold strFind
  rw [List.head?_isSome, filter_range_ne_nil_iff]
  constructor
  · rintro ⟨i, hi, hp⟩
    rw [Bool.and_eq_true, decide_eq_true_eq] at hp
    exact ⟨i, hi, hp.1, hp.2⟩
  · rintro ⟨i, hi, h1, h2⟩
    refine ⟨i, hi, ?_⟩
    rw [Bool.and_eq_true, decide_eq_true_eq]
    exact ⟨h1, h2⟩

theorem strRfind_isSome_iff (w pat : List Char) (pos : Nat) :
    (strRfind w pat pos).isSome = true ↔
      ∃ i, i < w.length + 1 ∧ i ≤ pos ∧ occursAt w pat i = true := by
  unfold strRfind
  rw [List.getLast?_isSome, filter_range_ne_nil_iff]
  constructor
  · rintro ⟨i, hi, hp⟩
    rw [Bool.and_eq_true, decide_eq_true_eq] at hp
    exact ⟨i, hi, hp.1, hp.2⟩
  · rintro ⟨i, hi, h1, h2⟩
    refine ⟨i, hi, ?_⟩
    rw [Bool.and_eq_true, decide_eq_true_eq]
    exact ⟨h1, h2⟩

theorem strFind_none_of_short {w pat : List Char} (pos : Nat)
    (h : w.length < pat.length) : strFind w pat pos = none := by
  rw [← Option.not_isSome_iff_eq_none, strFind_isSome_iff]
  rintro ⟨i, _, _, hocc⟩
  obtain ⟨hlen, _⟩ := (occursAt_iff w pat i).mp hocc
  omega

theorem strRfind_zero_isSome_iff (w pat : List Char) :
    (strRfind w pat 0).isSome = true ↔ pat <+: w := by
  rw [strRfind_isSome_iff]
  constructor
  · rintro ⟨i, _, hi0, hocc⟩
    have hi : i = 0 := Nat.le_zero.mp hi0
    subst hi
    obtain ⟨hlen, heq⟩ := (occursAt_iff w pat 0).mp hocc
    rw [List.drop_zero] at heq
    exact List.prefix_iff_eq_take.mpr heq.symm
  · intro hp
    refine ⟨0, by omega, Nat.le_refl 0, ?_⟩
    rw [occursAt_iff, List.drop_zero]
    exact ⟨by simpa using hp.length_le, (List.prefix_iff_eq_take.mp hp).symm⟩

theorem strFind_zero_isSome_iff (w pat : List Char) :
    (strFind w pat 0).isSome = true ↔ pat <:+: w := by
  rw [strFind_isSome_iff]
  constructor
  · rintro ⟨i, _, _, hocc⟩
    obtain ⟨hlen, heq⟩ := (occursAt_iff w pat i).mp hocc
    refine ⟨w.take i, (w.drop i).drop pat.length, ?_⟩
    have hsplit : pat ++ (w.drop i).drop pat.length = w.drop i := by
      conv_rhs => rw [← List.take_append_drop pat.length (w.drop i)]
      rw [heq]
    calc w.take i ++ pat ++ (w.drop i).drop pat.length
        = w.take i ++ (pat ++ (w.drop i).drop pat.length) := by
          rw [List.append_assoc]
      _ = w.take i ++ w.drop i := by rw [hsplit]
      _ = w := List.take_append_drop i w
  · rintro ⟨s, t, rfl⟩
    have hl : (s ++ pat ++ t).length = s.length + pat.length + t.length := by
      simp
      omega
    refine ⟨s.length, by omega, Nat.zero_le _, ?_⟩
    rw [occursAt_iff]
    refine ⟨by omega, ?_⟩
    rw [List.append_assoc, List.drop_left, List.take_left]

theorem sizeTSub_eq_of_le {a b : Nat} (hba : b ≤ a) (ha : a < 2 ^ 64) :
    sizeTSub a b = a - b := by
  unfold sizeTSub
  rw [← Int.ofNat_sub hba, Int.emod_eq_of_lt (Int.natCast_nonneg _)
    (by exact_mod_cast Nat.lt_of_le_of_lt (Nat.sub_le a b) ha)]
  exact Int.toNat_natCast _

theorem sizeTSub_zero_le (a : Nat) : sizeTSub a 0 ≤ a := by
  unfold sizeTSub
  rw [show ((a : Int) - ((0 : Nat) : Int)) = ((a : Nat) : Int) by simp]
  rw [show ((2 : Int) ^ (64 : Nat)) = (((2 ^ 64 : Nat) : Nat) : Int) by
    push_cast]
  rw [← Int.natCast_mod, Int.toNat_natCast]
  exact Nat.mod_le _ _

theorem endsWith_filter_iff (w pat : List Char) (hw : w.length < 2 ^ 64) :
    (strFind w pat (sizeTSub w.length pat.length)).isSome = true ↔
      pat <:+ w := by
  by_cases hlen : pat.length ≤ w.length
  · rw [sizeTSub_eq_of_le hlen hw, strFind_isSome_iff]
    constructor
    · rintro ⟨i, _, hpos, hocc⟩
      obtain ⟨hle, heq⟩ := (occursAt_iff w pat i).mp hocc
      have hi : i = w.length - pat.length := by omega
      subst hi
      rw [List.take_of_length_le
        (le_of_eq (by rw [List.length_drop]; omega))] at heq
      rw [List.suffix_iff_eq_drop]
      exact heq.symm
    · intro hs
      refine ⟨w.length - pat.length, by omega, Nat.le_refl _, ?_⟩
      rw [occursAt_iff]
      refine ⟨by omega, ?_⟩
      have hdrop := List.suffix_iff_eq_drop.mp hs
      rw [← hdrop, List.take_length]
  · rw [strFind_none_of_short _ (by omega)]
    simp only [Option.isSome_none, Bool.false_eq_true, false_iff]
    intro hs
    exact absurd hs.length_le (by omega)

/-- Claim C5: a word strictly shorter than the ends-with filter string is
always rejected by the filter — despite the `size_t` start index
`word.length() - strlen(endsWith)` wrapping around — and in particular
`endsWith = "INGS"` rejects `"GO"`.  (The model is a total function, so no
crash is possible; rejection is `passesFilters = false`.) -/
theorem endsWith_short_rejected :
    (∀ (f : Filters) (word : List Char),
        word.length < f.endsWith.length → passesFilters f word = false) ∧
    passesFilters ⟨[], "INGS".data, []⟩ "GO".data = false := by
  refine ⟨?_, by decide⟩
  intro f word h
  unfold passesFilters
  rw [strFind_none_of_short _ h]
  simp

theorem endsWith_short_rejected_witness :
    ("GO".data : List Char).length < ("INGS".data : List Char).length ∧
      passesFilters ⟨"X".data, "INGS".data, "Y".data⟩ "GO".data = false :=
  ⟨by decide,
   endsWith_short_rejected.1 ⟨"X".data, "INGS".data, "Y".data⟩ "GO".data
     (by decide)⟩

/-- Claim C6 counterexample: the contains filter `"cat"` rejects the word
`"CAT"` while the filter `"CAT"` accepts it, so flipping the case of the
filter changes the accept/reject decision — the filters are not
case-insensitive. -/
theorem filters_case_cex :
    passesFilters ⟨[], [], "cat".data⟩ "CAT".data = false ∧
    passesFilters ⟨[], [], "CAT".data⟩ "CAT".data = true := by
  decide

/-- Claim C6 (amended): the three text filters compare case-sensitively, by
exact character equality: starts-with accepts exactly the literal prefixes,
ends-with exactly the literal suffixes, contains exactly the literal
contiguous substrings of the word. -/
theorem filters_exact_match (f : Filters) (word : List Char)
    (hw : word.length < 2 ^ 64) :
    passesFilters f word = true ↔
      f.startsWith <+: word ∧ f.endsWith <:+ word ∧
        f.contains <:+: word := by
  unfold passesFilters
  rw [Bool.and_eq_true, Bool.and_eq_true, strRfind_zero_isSome_iff,
    endsWith_filter_iff _ _ hw, strFind_zero_isSome_iff]

theorem filters_exact_match_witness :
    passesFilters ⟨"C".data, "T".data, "A".data⟩ "CAT".data = true ↔
      ("C".data <+: "CAT".data ∧ "T".data <:+ "CAT".data ∧
        "A".data <:+: "CAT".data) :=
  filters_exact_match ⟨"C".data, "T".data, "A".data⟩ "CAT".data (by decide)

theorem passesFilters_empty (word : List Char) :
    passesFilters ⟨[], [], []⟩ word = true := by
  unfold passesFilters
  rw [Bool.and_eq_true, Bool.and_eq_true]
  refine ⟨?_, ?_, ?_⟩
  · rw [strRfind_zero_isSome_iff]
    exact List.nil_prefix
  · rw [strFind_isSome_iff]
    refine ⟨sizeTSub word.length 0,
      by have := sizeTSub_zero_le word.length; omega, Nat.le_refl _, ?_⟩
    rw [occursAt_iff]
    refine ⟨?_, by simp⟩
    have := sizeTSub_zero_le word.length
    simpa using this
  · rw [strFind_zero_isSome_iff]
    exact List.nil_infix

/-- Claim C9: running `solve` with all three filter strings empty produces
exactly the same candidate list as the filter-less `solve` variant: an empty
filter string accepts every word. -/
theorem empty_filters_noop (dictionary : List (List Char)) (input : List Char)
    (method : SortingMethod) :
    solve dictionary input ⟨[], [], []⟩ method =
      solveUnfiltered dictionary input method := by
  unfold solve solveUnfiltered candidateWords
  congr 1
  apply List.filterMap_congr
  intro w _
  unfold candidateOf
  rw [if_pos (passesFilters_empty w)]

/-! The result formatter -/

theorem format_foldl (ws : List (List Char × Int)) :
    ∀ acc : List Char,
      ws.foldl (fun acc p => acc ++ (renderEntry p ++ "\r\n".data)) acc =
        acc ++ (ws.map (fun p => renderEntry p ++ "\r\n".data)).flatten := by
  induction ws with
  | nil => intro acc; simp
  | cons p t ih =>
    intro acc
    simp only [List.foldl_cons, List.map_cons, List.flatten_cons, ih]
    rw [List.append_assoc]

theorem flatten_render_eq (ws : List (List Char × Int)) (h : ws ≠ []) :
    (ws.map (fun p => renderEntry p ++ "\r\n".data)).flatten =
      joinCRLF (ws.map renderEntry) ++ "\r\n".data := by
  induction ws with
  | nil => exact absurd rfl h
  | cons p t ih =>
    cases t with
    | nil => simp [joinCRLF]
    | cons q r =>
      have ih2 := ih (by simp)
      have hmap : (List.map (fun p => renderEntry p ++ "\r\n".data)
          (p :: q :: r)).flatten =
          (renderEntry p ++ "\r\n".data) ++
            (List.map (fun p => renderEntry p ++ "\r\n".data)
              (q :: r)).flatten := rfl
      rw [hmap, ih2]
      have hjoin : joinCRLF (List.map renderEntry (p :: q :: r)) =
          renderEntry p ++ '\r' :: '\n' ::
            joinCRLF (List.map renderEntry (q :: r)) := rfl
      rw [hjoin]
      have hdata : ("\r\n".data : List Char) = ['\r', '\n'] := rfl
      rw [hdata]
      simp [List.append_assoc]

/-- Claim C4: `format` returns the literal string `"No results"` on an empty
candidate list, and otherwise renders each candidate as `<WORD> (<score>)`
joined by `"\r\n"` with no trailing line ending after the final entry. -/
theorem format_spec (words : List (List Char × Int)) :
    format words =
      if words = [] then "No results".data
      else joinCRLF (words.map renderEntry) := by
  cases words with
  | nil => rfl
  | cons p t =>
    unfold format
    rw [if_neg (by simp), if_neg (by simp), format_foldl,
      flatten_render_eq _ (by simp), List.nil_append]
    have hdata : ("\r\n".data : List Char) = ['\r'] ++ ['\n'] := rfl
    rw [hdata, ← List.append_assoc, List.dropLast_concat, List.dropLast_concat]

/-! The unset sorting selector -/

theorem candidateWords_fst_sublist (input : List Char) (f : Filters) :
    ∀ dictionary : List (List Char),
      ((candidateWords dictionary input f).map Prod.fst).Sublist
        dictionary := by
  intro dictionary
  induction dictionary with
  | nil => simp [candidateWords]
  | cons d t ih =>
    unfold candidateWords at ih ⊢
    rw [List.filterMap_cons]
    cases hg : candidateOf input f d with
    | none =>
      show (List.map Prod.fst (t.filterMap (candidateOf input f))).Sublist
        (d :: t)
      exact List.Sublist.cons d ih
    | some p =>
      show (List.map Prod.fst
        (p :: t.filterMap (candidateOf input f))).Sublist (d :: t)
      rw [List.map_cons]
      have hp1 : p.1 = d := (candidateOf_eq_some hg).2.1
      rw [hp1]
      exact List.Sublist.cons₂ d ih

/-- Claim C7 counterexample: with the selector unset (`None`) `solve` does
not order its output as `Points` would: on dictionary `["CAT", "ACT"]` and
rack `"TAC"` the `None` output is in dictionary order, the `Points` output is
sorted, and the two differ. -/
theorem sortNone_cex :
    solve ["CAT".data, "ACT".data] "TAC".data ⟨[], [], []⟩ .None ≠
      solve ["CAT".data, "ACT".data] "TAC".data ⟨[], [], []⟩ .Points := by
  decide

/-- Claim C7 (amended): with the selector in the `None` state `solve` applies
no sorting at all: its output is exactly the accumulation loop's output, and
the emitted words are a subsequence of the dictionary (dictionary order is
preserved). -/
theorem sortNone_keeps_dictionary_order (dictionary : List (List Char))
    (input : List Char) (f : Filters) :
    solve dictionary input f .None = candidateWords dictionary input f ∧
    ((solve dictionary input f .None).map Prod.fst).Sublist dictionary :=
  ⟨rfl, candidateWords_fst_sublist input f dictionary⟩

/-! Multiplicity of emitted words -/

theorem candidateOf_isSome (input : List Char) (f : Filters)
    (word : List Char) :
    (candidateOf input f word).isSome = accepted input f word := by
  unfold candidateOf accepted
  by_cases hp : passesFilters f word = true
  · rw [if_pos hp, hp, Bool.true_and]
    cases hc : check (countLetter word) (countLetter input) (blankCount input)
        (calculate word) with
    | none => rfl
    | some pts => rfl
  · rw [if_neg hp]
    rw [Bool.not_eq_true] at hp
    rw [hp, Bool.false_and]
    rfl

theorem countP_candidateWords (input : List Char) (f : Filters)
    (w : List Char) :
    ∀ dictionary : List (List Char),
      (candidateWords dictionary input f).countP (fun q => q.1 == w) =
        if accepted input f w = true then dictionary.count w else 0 := by
  intro dictionary
  induction dictionary with
  | nil => simp [candidateWords]
  | cons d t ih =>
    unfold candidateWords at ih ⊢
    rw [List.filterMap_cons]
    cases hg : candidateOf input f d with
    | none =>
      show (t.filterMap (candidateOf input f)).countP (fun q => q.1 == w) =
        if accepted input f w = true then (d :: t).count w else 0
      rw [ih]
      by_cases hacc : accepted input f w = true
      · rw [if_pos hacc, if_pos hacc, List.count_cons]
        have hdw : (d == w) = false := by
          by_contra hde
          have hde2 : d = w := by
            cases hbe : (d == w) with
            | false => exact absurd hbe hde
            | true => exact beq_iff_eq.mp hbe
          subst hde2
          have hs : (candidateOf input f d).isSome = true := by
            rw [candidateOf_isSome]
            exact hacc
          rw [hg] at hs
          exact absurd hs (by simp)
        rw [hdw]
        simp
      · rw [if_neg hacc, if_neg hacc]
    | some p =>
      show (p :: t.filterMap (candidateOf input f)).countP
          (fun q => q.1 == w) =
        if accepted input f w = true then (d :: t).count w else 0
      rw [List.countP_cons, ih]
      have hp1 : p.1 = d := (candidateOf_eq_some hg).2.1
      by_cases hdw : d = w
      · subst hdw
        have hacc : accepted input f d = true := by
          rw [← candidateOf_isSome, hg]
          rfl
        rw [if_pos hacc, if_pos hacc, List.count_cons]
        have hbeq : (p.1 == d) = true := by rw [hp1]; simp
        rw [hbeq]
        simp
      · have hbeq : (p.1 == w) = false := by rw [hp1]; simp [hdw]
        have hbeq2 : (d == w) = false := by simp [hdw]
        rw [hbeq, List.count_cons, hbeq2]
        simp

/-- Claim C8 counterexample: on dictionary `["AT", "AT"]` with rack `"AT"`,
the word `"AT"` appears twice in the candidate list — a duplicated dictionary
entry is emitted once per occurrence, so it is false that no word appears
more than once. -/
theorem duplicates_cex :
    ¬ (solve ["AT".data, "AT".data] "AT".data ⟨[], [], []⟩ .Points).countP
        (fun q => q.1 == "AT".data) ≤ 1 := by
  decide

/-- Claim C8 (amended): duplicates are not deduplicated — each dictionary
occurrence is evaluated and emitted independently: the number of entries for
a word `w` in `solve`'s output equals `w`'s multiplicity in the dictionary
when `w` is accepted, and 0 otherwise. -/
theorem duplicates_preserved (dictionary : List (List Char))
    (input : List Char) (f : Filters) (method : SortingMethod)
    (w : List Char) :
    (solve dictionary input f method).countP (fun q => q.1 == w) =
      if accepted input f w = true then dictionary.count w else 0 := by
  unfold solve
  rw [(sortWords_perm method _).countP_eq]
  exact countP_candidateWords input f w dictionary

/-! The by-score comparator: trichotomy and sortedness -/

theorem charLoop_cons_eq (x : Char) (as bs : List Char) :
    charLoop (x :: as) (x :: bs) = charLoop as bs := by
  simp [charLoop]

theorem charLoop_cons_ne {x y : Char} (h : x ≠ y) (as bs : List Char) :
    charLoop (x :: as) (y :: bs) = some (decide (x < y)) := by
  simp [charLoop, h]

theorem charLoop_none_iff :
    ∀ {a b : List Char}, a.length = b.length →
      (charLoop a b = none ↔ a = b) := by
  intro a
  induction a with
  | nil =>
    intro b hb
    cases b with
    | nil => simp [charLoop]
    | cons y bs => simp at hb
  | cons x as ih =>
    intro b hb
    cases b with
    | nil => simp at hb
    | cons y bs =>
      by_cases hxy : x = y
      · subst hxy
        rw [charLoop_cons_eq, ih (by simpa using hb)]
        simp
      · rw [charLoop_cons_ne hxy]
        simp [hxy]

theorem charLoop_swap :
    ∀ {a b : List Char} {t : Bool}, charLoop a b = some t →
      charLoop b a = some (!t) := by
  intro a
  induction a with
  | nil =>
    intro b t h
    cases b <;> simp [charLoop] at h
  | cons x as ih =>
    intro b t h
    cases b with
    | nil => simp [charLoop] at h
    | cons y bs =>
      by_cases hxy : x = y
      · subst hxy
        rw [charLoop_cons_eq] at h
        rw [charLoop_cons_eq]
        exact ih h
      · rw [charLoop_cons_ne hxy] at h
        rw [charLoop_cons_ne (Ne.symm hxy)]
        have ht : t = decide (x < y) := (Option.some_inj.mp h).symm
        subst ht
        congr 1
        by_cases hlt : x < y
        · simp [hlt, lt_asymm hlt]
        · have hgt : y < x :=
            lt_of_le_of_ne (le_of_not_lt hlt) (Ne.symm hxy)
          simp [hlt, hgt]

theorem charLoop_trans :
    ∀ {a b c : List Char}, charLoop a b = some true →
      charLoop b c = some true → charLoop a c = some true := by
  intro a
  induction a with
  | nil =>
    intro b c h1 _
    cases b <;> simp [charLoop] at h1
  | cons x as ih =>
    intro b c h1 h2
    cases b with
    | nil => simp [charLoop] at h1
    | cons y bs =>
      cases c with
      | nil => simp [charLoop] at h2
      | cons z cs =>
        by_cases hxy : x = y
        · subst hxy
          rw [charLoop_cons_eq] at h1
          by_cases hyz : x = z
          · subst hyz
            rw [charLoop_cons_eq] at h2
            rw [charLoop_cons_eq]
            exact ih h1 h2
          · rw [charLoop_cons_ne hyz] at h2
            rw [charLoop_cons_ne hyz]
            exact h2
        · rw [charLoop_cons_ne hxy] at h1
          have hxy2 : x < y := of_decide_eq_true (Option.some_inj.mp h1)
          by_cases hyz : y = z
          · subst hyz
            rw [charLoop_cons_ne hxy]
            exact h1
          · rw [charLoop_cons_ne hyz] at h2
            have hyz2 : y < z := of_decide_eq_true (Option.some_inj.mp h2)
            have hxz : x < z := lt_trans hxy2 hyz2
            rw [charLoop_cons_ne (ne_of_lt hxz)]
            simp [hxz]

theorem pointsLt_iff (a b : List Char × Int) :
    pointsLt a b = true ↔
      a.2 < b.2 ∨ (a.2 = b.2 ∧ (a.1.length < b.1.length ∨
        (a.1.length = b.1.length ∧ charLoop a.1 b.1 = some true))) := by
  unfold pointsLt
  by_cases h2 : a.2 = b.2
  · rw [if_pos h2]
    by_cases hl : a.1.length = b.1.length
    · rw [if_pos hl]
      cases hcl : charLoop a.1 b.1 with
      | none => simp [h2, hl, hcl]
      | some r =>
        cases r with
        | false => simp [h2, hl, hcl]
        | true => simp [h2, hl, hcl]
    · rw [if_neg hl]
      simp [h2, hl]
  · rw [if_neg h2]
    simp [h2]

theorem pointsLt_false_iff (a b : List Char × Int) :
    pointsLt b a = false ↔ specByScoreLe a b := by
  rw [← Bool.not_eq_true, pointsLt_iff]
  unfold specByScoreLe
  constructor
  · intro h
    push_neg at h
    obtain ⟨h1, h2⟩ := h
    rcases lt_trichotomy a.2 b.2 with hs | hs | hs
    · exact Or.inl hs
    · right
      refine ⟨hs, ?_⟩
      obtain ⟨h3, h4⟩ := h2 hs.symm
      rcases Nat.lt_trichotomy a.1.length b.1.length with hL | hL | hL
      · exact Or.inl hL
      · right
        refine ⟨hL, ?_⟩
        have h5 := h4 hL.symm
        cases hcl : charLoop b.1 a.1 with
        | none =>
          left
          exact ((charLoop_none_iff hL.symm).mp hcl).symm
        | some r =>
          cases r with
          | true => exact absurd hcl h5
          | false =>
            right
            simpa using charLoop_swap hcl
      · exact absurd hL (by omega)
    · exact absurd hs (by omega)
  · intro hspec hcontra
    rcases hcontra with hs | ⟨hs, hrest⟩
    · rcases hspec with h | ⟨h, _⟩
      · exact absurd hs (by omega)
      · exact absurd hs (by omega)
    · rcases hspec with h | ⟨h, hrest2⟩
      · exact absurd hs (by omega)
      · rcases hrest with hL | ⟨hL, hcl⟩
        · rcases hrest2 with hL2 | ⟨hL2, _⟩
          · exact absurd hL (by omega)
          · exact absurd hL (by omega)
        · rcases hrest2 with hL2 | ⟨hL2, hin2⟩
          · exact absurd hL2 (by omega)
          · rcases hin2 with heq | hlt2
            · rw [heq] at hcl
              have hn : charLoop b.1 b.1 = none :=
                (charLoop_none_iff rfl).mpr rfl
              rw [hn] at hcl
              exact absurd hcl (by simp)
            · have hsw := charLoop_swap hlt2
              rw [hsw] at hcl
              exact absurd hcl (by simp)

theorem pointsLt_asymm {a b : List Char × Int} (h : pointsLt a b = true) :
    pointsLt b a = false := by
  rw [pointsLt_iff] at h
  rw [pointsLt_false_iff]
  unfold specByScoreLe
  rcases h with h | ⟨h, hrest⟩
  · exact Or.inl h
  · rcases hrest with hL | ⟨hL, hcl⟩
    · exact Or.inr ⟨h, Or.inl hL⟩
    · exact Or.inr ⟨h, Or.inr ⟨hL, Or.inr hcl⟩⟩

theorem pointsLt_total_ne {a b : List Char × Int} (h : a.1 ≠ b.1) :
    pointsLt a b = true ∨ pointsLt b a = true := by
  by_contra hcon
  push_neg at hcon
  obtain ⟨h1, h2⟩ := hcon
  have h1f := Bool.eq_false_iff.mpr h1
  have h2f := Bool.eq_false_iff.mpr h2
  rw [pointsLt_false_iff] at h1f h2f
  unfold specByScoreLe at h1f h2f
  rcases h2f with hs | ⟨hs, hr2⟩
  · rcases h1f with hs1 | ⟨hs1, _⟩
    · exact absurd hs (by omega)
    · exact absurd hs (by omega)
  · rcases h1f with hs1 | ⟨hs1, hr1⟩
    · exact absurd hs1 (by omega)
    · rcases hr2 with hL | ⟨hL, hin2⟩
      · rcases hr1 with hL1 | ⟨hL1, _⟩
        · exact absurd hL (by omega)
        · exact absurd hL (by omega)
      · rcases hr1 with hL1 | ⟨hL1, hin1⟩
        · exact absurd hL1 (by omega)
        · rcases hin2 with heq | hcl2
          · exact h heq
          · rcases hin1 with heq1 | hcl1
            · exact h heq1.symm
            · have hsw := charLoop_swap hcl2
              rw [hsw] at hcl1
              exact absurd hcl1 (by simp)

theorem specByScoreLe_trans (u v t : List Char × Int) :
    specByScoreLe u v → specByScoreLe v t → specByScoreLe u t := by
  intro h1 h2
  unfold specByScoreLe at h1 h2 ⊢
  rcases h1 with hs1 | ⟨hs1, hr1⟩
  · rcases h2 with hs2 | ⟨hs2, hr2⟩
    · exact Or.inl (by omega)
    · exact Or.inl (by omega)
  · rcases h2 with hs2 | ⟨hs2, hr2⟩
    · exact Or.inl (by omega)
    · refine Or.inr ⟨by omega, ?_⟩
      rcases hr1 with hL1 | ⟨hL1, hin1⟩
      · rcases hr2 with hL2 | ⟨hL2, hin2⟩
        · exact Or.inl (by omega)
        · exact Or.inl (by omega)
      · rcases hr2 with hL2 | ⟨hL2, hin2⟩
        · exact Or.inl (by omega)
        · refine Or.inr ⟨by omega, ?_⟩
          rcases hin1 with heq1 | hcl1
          · rcases hin2 with heq2 | hcl2
            · exact Or.inl (heq1.trans heq2)
            · right
              rw [heq1]
              exact hcl2
          · rcases hin2 with heq2 | hcl2
            · right
              rw [← heq2]
              exact hcl1
            · exact Or.inr (charLoop_trans hcl1 hcl2)

theorem pairwise_insertBy {α : Type} (lt : α → α → Bool) (R : α → α → Prop)
    (hR : ∀ u v, R u v ↔ lt v u = false)
    (hasymm : ∀ u v, lt u v = true → lt v u = false)
    (htrans : ∀ u v t, R u v → R v t → R u t) (x : α) :
    ∀ l : List α, l.Pairwise R → (insertBy lt x l).Pairwise R := by
  intro l
  induction l with
  | nil =>
    intro _
    simp [insertBy]
  | cons y ys ih =>
    intro hp
    rw [List.pairwise_cons] at hp
    obtain ⟨hy, hys⟩ := hp
    have hRxy : lt x y = true → R x y := fun hxy =>
      (hR x y).mpr (hasymm x y hxy)
    by_cases hxy : lt x y = true
    · rw [show insertBy lt x (y :: ys) = x :: y :: ys from by
        simp [insertBy, hxy]]
      rw [List.pairwise_cons]
      constructor
      · intro z hz
        rcases List.mem_cons.mp hz with rfl | hz2
        · exact hRxy hxy
        · exact htrans x y z (hRxy hxy) (hy z hz2)
      · rw [List.pairwise_cons]
        exact ⟨hy, hys⟩
    · rw [show insertBy lt x (y :: ys) = y :: insertBy lt x ys from by
        simp [insertBy, hxy]]
      rw [List.pairwise_cons]
      constructor
      · intro z hz
        rcases (mem_insertBy lt x z ys).mp hz with rfl | hz2
        · rw [Bool.not_eq_true] at hxy
          exact (hR y z).mpr hxy
        · exact hy z hz2
      · exact ih hys

theorem pairwise_sortBy {α : Type} (lt : α → α → Bool) (R : α → α → Prop)
    (hR : ∀ u v, R u v ↔ lt v u = false)
    (hasymm : ∀ u v, lt u v = true → lt v u = false)
    (htrans : ∀ u v t, R u v → R v t → R u t) :
    ∀ l : List α, (sortBy lt l).Pairwise R := by
  intro l
  induction l with
  | nil => simp [sortBy]
  | cons x xs ih =>
    show (insertBy lt x (sortBy lt xs)).Pairwise R
    exact pairwise_insertBy lt R hR hasymm htrans x _ ih

/-- Claim C3: the by-score comparator is total on candidates with distinct
word text (exactly one of `a < b`, `b < a` holds), and under by-score mode
the candidate list produced by `solve` is sorted by adjusted score ascending,
ties broken by word length ascending, further ties broken by the first
differing character ascending. -/
theorem byScore_order_spec :
    (∀ a b : List Char × Int, a.1 ≠ b.1 →
      Xor' (pointsLt a b = true) (pointsLt b a = true)) ∧
    ∀ (dictionary : List (List Char)) (input : List Char) (f : Filters),
      (solve dictionary input f .Points).Pairwise specByScoreLe := by
  constructor
  · intro a b h
    rcases pointsLt_total_ne h with h1 | h1
    · left
      refine ⟨h1, ?_⟩
      rw [pointsLt_asymm h1]
      simp
    · right
      refine ⟨h1, ?_⟩
      rw [pointsLt_asymm h1]
      simp
  · intro dictionary input f
    show (sortBy pointsLt (candidateWords dictionary input f)).Pairwise
      specByScoreLe
    exact pairwise_sortBy pointsLt specByScoreLe
      (fun u v => (pointsLt_false_iff u v).symm)
      (fun u v h => pointsLt_asymm h)
      specByScoreLe_trans _

theorem byScore_order_spec_witness :
    Xor' (pointsLt ("A".data, (1 : Int)) ("B".data, (1 : Int)) = true)
      (pointsLt ("B".data, (1 : Int)) ("A".data, (1 : Int)) = true) :=
  byScore_order_spec.1 _ _ (by decide)

end ScrabbleSolver
